import Mathlib

/-!
Formal model of Granite's content indexing and link resolution engine.

Strings are modelled as lists of characters (`PyStr`); the Python string
operations used by the code (`strip`, `lstrip("#")`, `lower`, `split`,
`replace`, containment and prefix/suffix tests) are defined below and the
services are translated from:

* `backend/services/tag_service.py` (`_normalize_tags`, `parse_tags`,
  `get_tags_cached`),
* `backend/routers/notes.py` / `backend/main.py` (`get_graph`),
* `backend/plugins.py` (`PluginManager.run_hook`,
  `PluginManager.run_hook_with_return`).
-/

namespace Granite

/-- Python strings, modelled as lists of characters. -/
abbrev PyStr := List Char

/-- Characters of a Lean string literal, used to write concrete `PyStr`s. -/
def strData (s : String) : PyStr := s.data

/-- Python `str.strip()` whitespace (ASCII fragment). -/
def isPySpace (c : Char) : Bool :=
  c = ' ' || c = '\t' || c = '\n' || c = '\r' || c = '\x0b' || c = '\x0c'

/-- Python `s.lstrip()`. -/
def pyLStrip (s : PyStr) : PyStr := s.dropWhile isPySpace

/-- Python `s.rstrip()`. -/
def pyRStrip (s : PyStr) : PyStr := (s.reverse.dropWhile isPySpace).reverse

/-- Python `s.strip()`. -/
def pyStrip (s : PyStr) : PyStr := pyRStrip (pyLStrip s)

/-- Python `s.lstrip("#")`. -/
def dropHash (s : PyStr) : PyStr := s.dropWhile (· = '#')

/-- Python `str.lower` on one character (ASCII fragment). -/
def lowerChar (c : Char) : Char :=
  if c = 'A' then 'a' else if c = 'B' then 'b' else if c = 'C' then 'c'
  else if c = 'D' then 'd' else if c = 'E' then 'e' else if c = 'F' then 'f'
  else if c = 'G' then 'g' else if c = 'H' then 'h' else if c = 'I' then 'i'
  else if c = 'J' then 'j' else if c = 'K' then 'k' else if c = 'L' then 'l'
  else if c = 'M' then 'm' else if c = 'N' then 'n' else if c = 'O' then 'o'
  else if c = 'P' then 'p' else if c = 'Q' then 'q' else if c = 'R' then 'r'
  else if c = 'S' then 's' else if c = 'T' then 't' else if c = 'U' then 'u'
  else if c = 'V' then 'v' else if c = 'W' then 'w' else if c = 'X' then 'x'
  else if c = 'Y' then 'y' else if c = 'Z' then 'z' else c

/-- Python `str.upper` on one character (ASCII fragment). -/
def upperChar (c : Char) : Char :=
  if c = 'a' then 'A' else if c = 'b' then 'B' else if c = 'c' then 'C'
  else if c = 'd' then 'D' else if c = 'e' then 'E' else if c = 'f' then 'F'
  else if c = 'g' then 'G' else if c = 'h' then 'H' else if c = 'i' then 'I'
  else if c = 'j' then 'J' else if c = 'k' then 'K' else if c = 'l' then 'L'
  else if c = 'm' then 'M' else if c = 'n' then 'N' else if c = 'o' then 'O'
  else if c = 'p' then 'P' else if c = 'q' then 'Q' else if c = 'r' then 'R'
  else if c = 's' then 'S' else if c = 't' then 'T' else if c = 'u' then 'U'
  else if c = 'v' then 'V' else if c = 'w' then 'W' else if c = 'x' then 'X'
  else if c = 'y' then 'Y' else if c = 'z' then 'Z' else c

/-- Python `s.lower()`. -/
def pyLower (s : PyStr) : PyStr := s.map lowerChar

/-- Python `s.upper()`. -/
def pyUpper (s : PyStr) : PyStr := s.map upperChar

/-- Python `sep in s` for a single character. -/
def pyContainsChar (s : PyStr) (c : Char) : Bool := s.contains c

/-- Python `s.startswith(pre)`. -/
def pyStartsWith (pre s : PyStr) : Bool := pre.isPrefixOf s

/-- Python `s.endswith(suf)`. -/
def pyEndsWith (suf s : PyStr) : Bool := suf.isSuffixOf s

/-- Splitting on every character satisfying `p`, keeping empty pieces:
Python `s.split(sep)` for a one-character separator is
`splitOnPred (· = sep)`. -/
def splitOnPred (p : Char → Bool) : PyStr → List PyStr
  | [] => [[]]
  | a :: rest =>
    match splitOnPred p rest with
    | [] => [[]]
    | h :: t => if p a then [] :: h :: t else (a :: h) :: t

/-- Python `s.split(c)` for a one-character separator `c`. -/
def splitOnChar (c : Char) (s : PyStr) : List PyStr := splitOnPred (· == c) s

/-- Python `s.split()` (split on whitespace runs, discarding empty pieces). -/
def pySplitWs (s : PyStr) : List PyStr :=
  (splitOnPred isPySpace s).filter (· ≠ [])

/-- Scanning loop of Python `s.replace(pat, repl)`; the fuel is an upper
bound on the string length, making the recursion structural. -/
def replaceAllFuel (pat repl : PyStr) : Nat → PyStr → PyStr
  | _, [] => []
  | 0, s => s
  | fuel + 1, c :: rest =>
    if pat ≠ [] ∧ pat.isPrefixOf (c :: rest) then
      repl ++ replaceAllFuel pat repl fuel ((c :: rest).drop pat.length)
    else
      c :: replaceAllFuel pat repl fuel rest

/-- Python `s.replace(pat, repl)` (all non-overlapping occurrences,
left to right). -/
def replaceAll (pat repl s : PyStr) : PyStr :=
  replaceAllFuel pat repl s.length s

/-- Python `sorted(set(l))` for lists of strings. -/
def sortDedup (l : List PyStr) : List PyStr :=
  List.insertionSort (· ≤ ·) l.dedup

/-! ### Tag service: `_normalize_tags` (tag_service.py) -/

/-- The cleaned tag of one part: `part.strip().lstrip("#").strip().lower()`. -/
def tagOfPart (part : PyStr) : PyStr :=
  pyLower (pyStrip (dropHash (pyStrip part)))

/-- The hierarchical segments of a tag: the nonempty stripped pieces of
`tag.split("/")`. -/
def segmentsOf (tag : PyStr) : List PyStr :=
  ((splitOnChar '/' tag).map pyStrip).filter (· ≠ [])

/-- The tags contributed by one part in `_normalize_tags`: the cleaned tag
(when nonempty), together with its segments when it contains `/`. -/
def tagsFromPart (part : PyStr) : List PyStr :=
  let tag := tagOfPart part
  if tag = [] then []
  else if pyContainsChar tag '/' then tag :: segmentsOf tag
  else [tag]

/-- `_normalize_tags` on a string argument. -/
def normalizeTagsStr (raw : PyStr) : List PyStr :=
  let text := pyStrip raw
  if text = [] then []
  else
    let parts :=
      if pyContainsChar text ',' then splitOnChar ',' text
      else pySplitWs text
    sortDedup (parts.flatMap tagsFromPart)

/-- `_normalize_tags` on a list argument. -/
def normalizeTagsList (raw : List PyStr) : List PyStr :=
  sortDedup (raw.flatMap normalizeTagsStr)

/-! ### Tag service: `parse_tags` (tag_service.py) -/

/-- The frontmatter block: the lines strictly before the first line that
strips to `---`, or `none` when no such line exists (`end_idx is None`). -/
def fmBlock : List PyStr → Option (List PyStr)
  | [] => none
  | l :: rest =>
    if pyStrip l = strData "---" then some []
    else (fmBlock rest).map (l :: ·)

/-- End of the frontmatter scan: `_normalize_tags(raw_list_items)` when any
list items were collected, `[]` otherwise. -/
def finishFM (acc : List PyStr) : List PyStr :=
  if acc ≠ [] then normalizeTagsList acc else []

/-- The frontmatter scanning loop of `parse_tags`, over the frontmatter
lines, with the `in_tags_list` flag and the collected `raw_list_items`. -/
def scanFM : List PyStr → Bool → List PyStr → List PyStr
  | [], _, acc => finishFM acc
  | line :: rest, inList, acc =>
    let stripped := pyStrip line
    if pyStartsWith (strData "tags:") stripped then
      let r := pyStrip (stripped.drop 5)
      if pyStartsWith (strData "[") r ∧ pyEndsWith (strData "]") r then
        normalizeTagsList (((splitOnChar ',' ((r.drop 1).dropLast)).map pyStrip))
      else if r ≠ [] then normalizeTagsStr r
      else scanFM rest true acc
    else if inList then
      if pyStartsWith (strData "-") stripped then
        let tag := pyStrip (stripped.drop 1)
        if tag ≠ [] then scanFM rest true (acc ++ [tag])
        else scanFM rest true acc
      else if stripped ≠ [] then finishFM acc
      else scanFM rest true acc
    else scanFM rest false acc

/-- `parse_tags`: extract tags from the YAML frontmatter of `content`. -/
def parseTags (content : PyStr) : List PyStr :=
  if ¬ pyStartsWith (strData "---") (pyStrip content) then []
  else
    let lines := splitOnChar '\n' content
    if pyStrip (lines.headD []) ≠ strData "---" then []
    else
      match fmBlock (lines.drop 1) with
      | none => []
      | some block => scanFM block false []

/-! ### Tag service: `get_tags_cached` (tag_service.py) -/

/-- The `_tag_cache` dictionary: file key to `(mtime, tags)`. -/
abbrev TagCache := List (PyStr × (Int × List PyStr))

/-- Dictionary lookup in the tag cache. -/
def cacheLookup (cache : TagCache) (key : PyStr) : Option (Int × List PyStr) :=
  (cache.find? (fun e => e.1 == key)).map (·.2)

/-- Dictionary assignment `cache[key] = v` (replace in place, or append). -/
def cacheInsert (cache : TagCache) (key : PyStr) (v : Int × List PyStr) :
    TagCache :=
  if cache.any (fun e => e.1 == key) then
    cache.map (fun e => if e.1 == key then (key, v) else e)
  else cache ++ [(key, v)]

/-- The observable file system at one path: `none` when `stat` raises,
`some (mtime, none)` when `stat` succeeds but opening or reading raises,
and `some (mtime, some content)` when the file is readable. -/
abbrev FileSys := PyStr → Option (Int × Option PyStr)

/-- `get_tags_cached`: returns the tags and the updated cache.  Any raised
exception is caught and yields `[]` with the cache untouched. -/
def getTagsCached (fs : FileSys) (cache : TagCache) (path : PyStr) :
    List PyStr × TagCache :=
  match fs path with
  | none => ([], cache)
  | some (mtime, rd) =>
    match cacheLookup cache path with
    | some (cachedMtime, cachedTags) =>
      if cachedMtime = mtime then (cachedTags, cache)
      else
        match rd with
        | none => ([], cache)
        | some content =>
          let tags := parseTags content
          (tags, cacheInsert cache path (mtime, tags))
    | none =>
      match rd with
      | none => ([], cache)
      | some content =>
        let tags := parseTags content
        (tags, cacheInsert cache path (mtime, tags))

/-! ### Graph endpoint: `get_graph` (routers/notes.py, main.py) -/

/-- A node of the returned graph: `{"id": ..., "label": ...}`.  The code
emits no further keys. -/
structure GraphNode where
  id : PyStr
  label : PyStr
  deriving DecidableEq

/-- An edge of the returned graph:
`{"source": ..., "target": ..., "type": ...}`. -/
structure GraphEdge where
  source : PyStr
  target : PyStr
  type : PyStr
  deriving DecidableEq

/-- One item of `get_all_notes`, as consumed by `get_graph`: its `name`,
`path` and `type` keys, together with the raw link targets that the two
regular expressions extract from the note's content (`wikilinks` holds the
`[[target]]` captures, `mdlinks` the path groups of `[text](path)`; both
are empty when `get_note_content` returns nothing). -/
structure NoteItem where
  name : PyStr
  path : PyStr
  type : PyStr
  wikilinks : List PyStr
  mdlinks : List PyStr
  deriving DecidableEq

/-- A Python string-keyed dictionary of strings. -/
abbrev StrDict := List (PyStr × PyStr)

/-- Dictionary lookup. -/
def dictGet (d : StrDict) (key : PyStr) : Option PyStr :=
  (d.find? (fun e => e.1 == key)).map (·.2)

/-- Dictionary assignment `d[key] = v`. -/
def dictInsert (d : StrDict) (key : PyStr) (v : PyStr) : StrDict :=
  if d.any (fun e => e.1 == key) then
    d.map (fun e => if e.1 == key then (key, v) else e)
  else d ++ [(key, v)]

/-- The literal `".md"`. -/
def mdExt : PyStr := strData ".md"

/-- The `note_paths` set: each note's path, with and without `.md`. -/
def buildNotePaths (notes : List NoteItem) : List PyStr :=
  notes.foldl
    (fun acc n =>
      if n.type = strData "note" then
        acc ++ [n.path, replaceAll mdExt [] n.path]
      else acc) []

/-- The `note_paths_lower` dictionary: lowercase path (with and without
`.md`) mapped to the actual path. -/
def buildNotePathsLower (notes : List NoteItem) : StrDict :=
  notes.foldl
    (fun d n =>
      if n.type = strData "note" then
        dictInsert (dictInsert d (pyLower n.path) n.path)
          (pyLower (replaceAll mdExt [] n.path)) n.path
      else d) []

/-- The `note_names` dictionary: lowercase name (with and without `.md`)
mapped to the path. -/
def buildNoteNames (notes : List NoteItem) : StrDict :=
  notes.foldl
    (fun d n =>
      if n.type = strData "note" then
        dictInsert (dictInsert d (pyLower (replaceAll mdExt [] n.name)) n.path)
          (pyLower n.name) n.path
      else d) []

/-- Resolution of one raw wikilink target in `get_graph`: exact path,
path with `.md` appended, case-insensitive path (with and without `.md`),
then case-insensitive note name; `none` when nothing matches. -/
def resolveWikilink (notePaths : List PyStr) (npl nn : StrDict)
    (targetRaw : PyStr) : Option PyStr :=
  let target := pyStrip targetRaw
  let targetLower := pyLower target
  if notePaths.contains target then
    some (if pyEndsWith mdExt target then target else target ++ mdExt)
  else if notePaths.contains (target ++ mdExt) then some (target ++ mdExt)
  else
    match dictGet npl targetLower with
    | some p => some p
    | none =>
      match dictGet npl (targetLower ++ mdExt) with
      | some p => some p
      | none => dictGet nn targetLower

/-- Resolution of one markdown link path in `get_graph`; `unquote` is
`urllib.parse.unquote`, kept as a parameter (the claims never depend on
percent decoding). -/
def resolveMarkdown (unquote : PyStr → PyStr) (notePaths : List PyStr)
    (npl nn : StrDict) (linkPathRaw : PyStr) : Option PyStr :=
  if linkPathRaw = [] ∨ pyStartsWith (strData "#") linkPathRaw then none
  else
    let linkPath0 := (splitOnChar '#' linkPathRaw).headD []
    if linkPath0 = [] then none
    else
      let lp1 := unquote linkPath0
      let lp := if pyStartsWith (strData "./") lp1 then lp1.drop 2 else lp1
      let withMd := if pyEndsWith mdExt lp then lp else lp ++ mdExt
      let lpLower := pyLower lp
      let withMdLower := pyLower withMd
      if notePaths.contains lp then
        some (if pyEndsWith mdExt lp then lp else lp ++ mdExt)
      else if notePaths.contains withMd then some withMd
      else
        match dictGet npl lpLower with
        | some p => some p
        | none =>
          match dictGet npl withMdLower with
          | some p => some p
          | none =>
            let filename := (splitOnChar '/' lp).getLastD []
            let fnMd :=
              if pyEndsWith mdExt filename then filename
              else filename ++ mdExt
            match dictGet nn (pyLower filename) with
            | some p => some p
            | none => dictGet nn (pyLower fnMd)

/-- The wikilink edges contributed by one note: an edge per resolved
target that is truthy and differs from the note's own path. -/
def wikiEdges (notePaths : List PyStr) (npl nn : StrDict) (n : NoteItem) :
    List GraphEdge :=
  n.wikilinks.filterMap
    (fun t =>
      match resolveWikilink notePaths npl nn t with
      | some p =>
        if p ≠ [] ∧ p ≠ n.path then
          some ⟨n.path, p, strData "wikilink"⟩
        else none
      | none => none)

/-- The markdown-link edges contributed by one note. -/
def mdEdges (unquote : PyStr → PyStr) (notePaths : List PyStr)
    (npl nn : StrDict) (n : NoteItem) : List GraphEdge :=
  n.mdlinks.filterMap
    (fun t =>
      match resolveMarkdown unquote notePaths npl nn t with
      | some p =>
        if p ≠ [] ∧ p ≠ n.path then
          some ⟨n.path, p, strData "markdown"⟩
        else none
      | none => none)

/-- The final deduplication loop of `get_graph`, with the `seen` set of
`(source, target)` keys. -/
def dedupEdges : List GraphEdge → List (PyStr × PyStr) → List GraphEdge
  | [], _ => []
  | e :: rest, seen =>
    if seen.contains (e.source, e.target) then dedupEdges rest seen
    else e :: dedupEdges rest ((e.source, e.target) :: seen)

/-- The node list of `get_graph`: one node per `type == "note"` item,
id = path, label = name with `.md` removed. -/
def graphNodes (notes : List NoteItem) : List GraphNode :=
  notes.filterMap
    (fun n =>
      if n.type = strData "note" then
        some ⟨n.path, replaceAll mdExt [] n.name⟩
      else none)

/-- The edge list of `get_graph` before deduplication: the wikilink edges
followed by the markdown edges of each note, in note order. -/
def rawGraphEdges (unquote : PyStr → PyStr) (notes : List NoteItem) :
    List GraphEdge :=
  let notePaths := buildNotePaths notes
  let npl := buildNotePathsLower notes
  let nn := buildNoteNames notes
  notes.flatMap
    (fun n =>
      if n.type = strData "note" then
        wikiEdges notePaths npl nn n ++ mdEdges unquote notePaths npl nn n
      else [])

/-- `get_graph`: the note nodes, and the collected edges deduplicated by
`(source, target)` keeping the first occurrence. -/
def buildGraph (unquote : PyStr → PyStr) (notes : List NoteItem) :
    List GraphNode × List GraphEdge :=
  (graphNodes notes, dedupEdges (rawGraphEdges unquote notes) [])

/-! ### Plugin pipeline (plugins.py) -/

/-- Outcome of calling a Python method: a returned value or a raised
exception. -/
inductive PyRes (α : Type) where
  | ok (a : α)
  | exn
  deriving DecidableEq

/-- A loaded plugin, as seen by the hook dispatchers: its name, its
`enabled` flag, and for each hook name either `none` (no such attribute)
or the method.  The method receives the value of the distinguished keyword
argument threaded by the dispatcher (`content` for `run_hook`,
`initial_content` for `run_hook_with_return`; `none` when that keyword is
absent) and returns the method's return value or raises. -/
structure HookPlugin where
  name : PyStr
  enabled : Bool
  method : PyStr → Option (Option (Option PyStr) → PyRes (Option PyStr))

/-- The dispatch loop of `run_hook`: threads `result`, collecting the
`(plugin name, hook name)` pairs logged for caught exceptions. -/
def runHookGo (hookName : PyStr) (hasContent : Bool) :
    List HookPlugin → Option PyStr → Option PyStr × List (PyStr × PyStr)
  | [], result => (result, [])
  | p :: rest, result =>
    match p.method hookName with
    | some f =>
      if p.enabled then
        if hasContent then
          match f (some result) with
          | .ok t =>
            runHookGo hookName hasContent rest
              (match t with | some s => some s | none => result)
          | .exn =>
            let r := runHookGo hookName hasContent rest result
            (r.1, (p.name, hookName) :: r.2)
        else
          match f none with
          | .ok _ => runHookGo hookName hasContent rest result
          | .exn =>
            let r := runHookGo hookName hasContent rest result
            (r.1, (p.name, hookName) :: r.2)
      else runHookGo hookName hasContent rest result
    | none => runHookGo hookName hasContent rest result

/-- `PluginManager.run_hook`.  `kwContent` is the `content` entry of the
keyword arguments: `none` when absent, `some v` when present with value
`v` (`v = none` standing for Python `None`).  Returns the returned value
together with the exception log. -/
def runHook (plugins : List HookPlugin) (hookName : PyStr)
    (kwContent : Option (Option PyStr)) :
    Option PyStr × List (PyStr × PyStr) :=
  let r := runHookGo hookName kwContent.isSome plugins kwContent.join
  (if kwContent.isSome then r.1 else none, r.2)

/-- The dispatch loop of `run_hook_with_return`: threads the
`initial_content` entry of the keyword arguments. -/
def runHookWithReturnGo (hookName : PyStr) :
    List HookPlugin → Option (Option PyStr) →
    Option (Option PyStr) × List (PyStr × PyStr)
  | [], kwInit => (kwInit, [])
  | p :: rest, kwInit =>
    match p.method hookName with
    | some f =>
      if p.enabled then
        match f kwInit with
        | .ok res =>
          runHookWithReturnGo hookName rest
            (if kwInit.isSome ∧ res.isSome then some res else kwInit)
        | .exn =>
          let r := runHookWithReturnGo hookName rest kwInit
          (r.1, (p.name, hookName) :: r.2)
      else runHookWithReturnGo hookName rest kwInit
    | none => runHookWithReturnGo hookName rest kwInit

/-- `PluginManager.run_hook_with_return`: returns
`kwargs.get("initial_content", "")` after the loop, with the exception
log. -/
def runHookWithReturn (plugins : List HookPlugin) (hookName : PyStr)
    (kwInit : Option (Option PyStr)) :
    Option PyStr × List (PyStr × PyStr) :=
  let r := runHookWithReturnGo hookName plugins kwInit
  (match r.1 with | some v => v | none => some [], r.2)

/-! ### Specification-side definitions

These two definitions follow the spec's words for the hook pipeline, to be
compared with the dispatchers translated from the code. -/

/-- One step of content-transform chaining as the spec words it: a
non-null return value replaces the running value, a null return (or a
caught exception) leaves it unchanged. -/
def specStep (hookName : PyStr) (acc : Option PyStr) (p : HookPlugin) :
    Option PyStr :=
  match p.method hookName with
  | some f =>
    match f (some acc) with
    | .ok (some t) => some t
    | .ok none => acc
    | .exn => acc
  | none => acc

/-- Content-transform chaining as the spec words it: the enabled plugins
implementing the hook, in registration order, thread the content value
through `specStep`. -/
def specChainContent (plugins : List HookPlugin) (hookName : PyStr)
    (v : Option PyStr) : Option PyStr :=
  (plugins.filter (fun p => p.enabled && (p.method hookName).isSome)).foldl
    (specStep hookName) v

/-- One step of `initial_content` threading: the keyword is updated to a
plugin's return value only when that return is non-null and the keyword
was passed; a caught exception leaves it unchanged. -/
def specKwStep (hookName : PyStr) (kw : Option (Option PyStr))
    (p : HookPlugin) : Option (Option PyStr) :=
  match p.method hookName with
  | some f =>
    match f kw with
    | .ok res => if kw.isSome ∧ res.isSome then some res else kw
    | .exn => kw
  | none => kw

/-- The final value of the `initial_content` keyword argument after the
enabled plugins implementing the hook have run in registration order. -/
def specThreadInitial (plugins : List HookPlugin) (hookName : PyStr)
    (kwInit : Option (Option PyStr)) : Option (Option PyStr) :=
  (plugins.filter (fun p => p.enabled && (p.method hookName).isSome)).foldl
    (specKwStep hookName) kwInit

/-- A tag in canonical token form: nonempty, free of whitespace, commas
and `#`, and unchanged by lowercasing. -/
def CleanTag (t : PyStr) : Prop :=
  t ≠ [] ∧ (∀ c ∈ t, isPySpace c = false ∧ c ≠ ',' ∧ c ≠ '#') ∧
    pyLower t = t

instance (t : PyStr) : Decidable (CleanTag t) := by
  unfold CleanTag; infer_instance

/-! ### Concrete fixtures used by the evaluations -/

/-- A vault with the folder `Projects` holding the single note
`Projects/Active.md`, plus a root note `index.md` whose content carries
the wikilink `[[Projects]]`.  (Folders are invisible to `get_graph`: no
folder ever reaches its input.) -/
def cexNotes : List NoteItem :=
  [⟨strData "Active", strData "Projects/Active.md", strData "note", [], []⟩,
   ⟨strData "index", strData "index.md", strData "note",
    [strData "Projects"], []⟩]

/-- A vault with duplicate links (`[[B]]`, `[[b]]` and `[B](B.md)` all
resolve to `B.md`) and a self link `[[A]]`. -/
def dupNotes : List NoteItem :=
  [⟨strData "A", strData "A.md", strData "note",
    [strData "B", strData "b", strData "A"], [strData "B.md"]⟩,
   ⟨strData "B", strData "B.md", strData "note", [], []⟩]

/-- The hook name `on_note_save`. -/
def onNoteSave : PyStr := strData "on_note_save"

/-- A method returning `content.upper()` (raising when `content` is absent
or `None`, as the attribute access would). -/
def upperMethod : Option (Option PyStr) → PyRes (Option PyStr)
  | some (some s) => .ok (some (pyUpper s))
  | _ => .exn

/-- A method returning `content + "!"`. -/
def exclaimMethod : Option (Option PyStr) → PyRes (Option PyStr)
  | some (some s) => .ok (some (s ++ strData "!"))
  | _ => .exn

/-- A method that always raises. -/
def raiseMethod : Option (Option PyStr) → PyRes (Option PyStr) :=
  fun _ => .exn

/-- A method that always returns a fixed string. -/
def constMethod : Option (Option PyStr) → PyRes (Option PyStr) :=
  fun _ => .ok (some (strData "k"))

/-- Enabled plugin `P1` whose `on_note_save` uppercases the content. -/
def P1ex : HookPlugin :=
  ⟨strData "P1", true,
   fun h => if h == onNoteSave then some upperMethod else none⟩

/-- Enabled plugin `P2` whose `on_note_save` appends `"!"`. -/
def P2ex : HookPlugin :=
  ⟨strData "P2", true,
   fun h => if h == onNoteSave then some exclaimMethod else none⟩

/-- `P2`, disabled. -/
def P2exOff : HookPlugin :=
  ⟨strData "P2", false,
   fun h => if h == onNoteSave then some exclaimMethod else none⟩

/-- Enabled plugin whose `on_note_save` always raises. -/
def PRaise : HookPlugin :=
  ⟨strData "P1", true,
   fun h => if h == onNoteSave then some raiseMethod else none⟩

/-- Enabled plugin whose `on_note_save` never raises. -/
def PConst : HookPlugin :=
  ⟨strData "PC", true,
   fun h => if h == onNoteSave then some constMethod else none⟩

/-- A file system with the single readable file `a.md`, whose frontmatter
carries the tag `x`, at modification time 1. -/
def fsA : FileSys :=
  fun p =>
    if p == strData "a.md" then some (1, some (strData "---\ntags: x\n---"))
    else none

/-- `fsA` after rewriting `a.md` to tag `y` at modification time 2. -/
def fsB : FileSys :=
  fun p =>
    if p == strData "a.md" then some (2, some (strData "---\ntags: y\n---"))
    else none

/-- `fsA` with the file unreadable (open raises), same modification time. -/
def fsErr : FileSys :=
  fun p => if p == strData "a.md" then some (1, none) else none

/-- A cache holding the entry of `a.md` as parsed from `fsA`. -/
def cacheA : TagCache := [(strData "a.md", (1, [strData "x"]))]

/-- Join lines with `\n` (inverse of `content.split("\n")`). -/
def joinLines : List PyStr → PyStr
  | [] => []
  | [l] => l
  | l :: l2 :: rest => l ++ '\n' :: joinLines (l2 :: rest)

/-- A content string whose frontmatter block is exactly `block`: an
opening `---` line, the block, a closing `---` line, then `rest` (either
empty or starting with a newline). -/
def mkContent (block : List PyStr) (rest : PyStr) : PyStr :=
  joinLines (strData "---" :: block ++ [strData "---"]) ++ rest

/-! ## Helper lemmas -/

theorem specChainContent_cons (p : HookPlugin) (ps : List HookPlugin)
    (h : PyStr) (v : Option PyStr) :
    specChainContent (p :: ps) h v =
      if p.enabled && (p.method h).isSome then
        specChainContent ps h (specStep h v p)
      else specChainContent ps h v := by
  by_cases hp : (p.enabled && (p.method h).isSome) = true
  · simp [specChainContent, List.filter_cons, hp]
  · simp only [Bool.not_eq_true] at hp
    simp [specChainContent, List.filter_cons, hp]

theorem specThreadInitial_cons (p : HookPlugin) (ps : List HookPlugin)
    (h : PyStr) (kw : Option (Option PyStr)) :
    specThreadInitial (p :: ps) h kw =
      if p.enabled && (p.method h).isSome then
        specThreadInitial ps h (specKwStep h kw p)
      else specThreadInitial ps h kw := by
  by_cases hp : (p.enabled && (p.method h).isSome) = true
  · simp [specThreadInitial, List.filter_cons, hp]
  · simp only [Bool.not_eq_true] at hp
    simp [specThreadInitial, List.filter_cons, hp]

theorem runHookGo_fst_eq_spec (h : PyStr) (ps : List HookPlugin)
    (v : Option PyStr) :
    (runHookGo h true ps v).1 = specChainContent ps h v := by
  induction ps generalizing v with
  | nil => simp [runHookGo, specChainContent]
  | cons p rest ih =>
    rw [specChainContent_cons]
    by_cases hm : (p.method h).isSome
    · rcases Option.isSome_iff_exists.mp hm with ⟨f, hf⟩
      by_cases he : p.enabled
      · cases hfr : f (some v) with
        | ok t =>
          cases t with
          | some s => simp [runHookGo, specStep, hf, he, hfr, ih, hm]
          | none => simp [runHookGo, specStep, hf, he, hfr, ih, hm]
        | exn => simp [runHookGo, specStep, hf, he, hfr, ih, hm]
      · simp only [Bool.not_eq_true] at he
        simp [runHookGo, hf, he, ih]
    · rw [Option.not_isSome_iff_eq_none] at hm
      simp [runHookGo, hm, ih]

theorem runHookWithReturnGo_fst_eq_spec (h : PyStr) (ps : List HookPlugin)
    (kw : Option (Option PyStr)) :
    (runHookWithReturnGo h ps kw).1 = specThreadInitial ps h kw := by
  induction ps generalizing kw with
  | nil => simp [runHookWithReturnGo, specThreadInitial]
  | cons p rest ih =>
    rw [specThreadInitial_cons]
    by_cases hm : (p.method h).isSome
    · rcases Option.isSome_iff_exists.mp hm with ⟨f, hf⟩
      by_cases he : p.enabled
      · cases hfr : f kw with
        | ok res => simp [runHookWithReturnGo, specKwStep, hf, he, hfr, ih, hm]
        | exn => simp [runHookWithReturnGo, specKwStep, hf, he, hfr, ih, hm]
      · simp only [Bool.not_eq_true] at he
        simp [runHookWithReturnGo, hf, he, ih]
    · rw [Option.not_isSome_iff_eq_none] at hm
      simp [runHookWithReturnGo, hm, ih]

theorem specThreadInitial_none (ps : List HookPlugin) (h : PyStr) :
    specThreadInitial ps h none = none := by
  induction ps with
  | nil => simp [specThreadInitial]
  | cons p rest ih =>
    rw [specThreadInitial_cons]
    by_cases hm : (p.method h).isSome
    · rcases Option.isSome_iff_exists.mp hm with ⟨f, hf⟩
      by_cases he : p.enabled
      · cases hfr : f none with
        | ok res => simp [specKwStep, hf, he, hfr, ih, hm]
        | exn => simp [specKwStep, hf, he, hfr, ih, hm]
      · simp only [Bool.not_eq_true] at he
        simp [he, ih]
    · rw [Option.not_isSome_iff_eq_none] at hm
      simp [hm, ih]

theorem runHookGo_append (h : PyStr) (hc : Bool) (ps1 ps2 : List HookPlugin)
    (v : Option PyStr) :
    runHookGo h hc (ps1 ++ ps2) v =
      ((runHookGo h hc ps2 (runHookGo h hc ps1 v).1).1,
       (runHookGo h hc ps1 v).2 ++
         (runHookGo h hc ps2 (runHookGo h hc ps1 v).1).2) := by
  induction ps1 generalizing v with
  | nil => simp [runHookGo]
  | cons p rest ih =>
    by_cases hm : (p.method h).isSome
    · rcases Option.isSome_iff_exists.mp hm with ⟨f, hf⟩
      by_cases he : p.enabled
      · cases hc with
        | true =>
          cases hfr : f (some v) with
          | ok t => cases t <;> simp [runHookGo, hf, he, hfr, ih]
          | exn => simp [runHookGo, hf, he, hfr, ih]
        | false =>
          cases hfr : f none with
          | ok t => simp [runHookGo, hf, he, hfr, ih]
          | exn => simp [runHookGo, hf, he, hfr, ih]
      · simp [runHookGo, hf, he, ih]
    · rw [Option.not_isSome_iff_eq_none] at hm
      simp [runHookGo, hm, ih]

theorem splitOnPred_ne_nil (p : Char → Bool) (s : PyStr) :
    splitOnPred p s ≠ [] := by
  induction s with
  | nil => simp [splitOnPred]
  | cons a rest ih =>
    rcases hsp : splitOnPred p rest with _ | ⟨h1, t⟩
    · exact absurd hsp ih
    · by_cases ha : p a
      · simp [splitOnPred, hsp, ha]
      · simp [splitOnPred, hsp, ha]

theorem splitOnPred_cons_pos (p : Char → Bool) (a : Char) (s : PyStr)
    (ha : p a = true) :
    splitOnPred p (a :: s) = [] :: splitOnPred p s := by
  rcases hsp : splitOnPred p s with _ | ⟨h1, t⟩
  · exact absurd hsp (splitOnPred_ne_nil p s)
  · simp [splitOnPred, hsp, ha]

theorem splitOnPred_cons_neg (p : Char → Bool) (a : Char) (s : PyStr)
    (ha : p a = false) :
    splitOnPred p (a :: s) =
      (a :: (splitOnPred p s).headD []) :: (splitOnPred p s).tail := by
  rcases hsp : splitOnPred p s with _ | ⟨h1, t⟩
  · exact absurd hsp (splitOnPred_ne_nil p s)
  · simp [splitOnPred, hsp, ha]

theorem splitOnPred_eq_self (p : Char → Bool) (s : PyStr)
    (h : ∀ c ∈ s, p c = false) : splitOnPred p s = [s] := by
  induction s with
  | nil => simp [splitOnPred]
  | cons a rest ih =>
    rw [splitOnPred_cons_neg p a rest (h a (List.mem_cons_self a rest)),
      ih (fun c hc => h c (List.mem_cons_of_mem a hc))]
    simp

theorem splitOnPred_append (p : Char → Bool) (xs ys : PyStr)
    (h : ∀ c ∈ xs, p c = false) :
    splitOnPred p (xs ++ ys) =
      (xs ++ (splitOnPred p ys).headD []) :: (splitOnPred p ys).tail := by
  induction xs with
  | nil =>
    rcases hsp : splitOnPred p ys with _ | ⟨h1, t⟩
    · exact absurd hsp (splitOnPred_ne_nil p ys)
    · simp [hsp]
  | cons a xs ih =>
    rw [List.cons_append,
      splitOnPred_cons_neg p a (xs ++ ys) (h a (List.mem_cons_self a xs)),
      ih (fun c hc => h c (List.mem_cons_of_mem a hc))]
    simp

theorem mem_splitOnPred_pfree (p : Char → Bool) (s : PyStr) :
    ∀ piece ∈ splitOnPred p s, ∀ c ∈ piece, p c = false := by
  induction s with
  | nil =>
    intro piece hp c hc
    simp [splitOnPred] at hp
    subst hp
    cases hc
  | cons a rest ih =>
    intro piece hp c hc
    by_cases ha : p a
    · rw [splitOnPred_cons_pos p a rest ha] at hp
      rcases List.mem_cons.mp hp with h | h
      · subst h; cases hc
      · exact ih piece h c hc
    · rw [splitOnPred_cons_neg p a rest (Bool.not_eq_true _ ▸ ha)] at hp
      rcases hsp : splitOnPred p rest with _ | ⟨h1, t⟩
      · exact absurd hsp (splitOnPred_ne_nil p rest)
      · rw [hsp] at hp
        simp only [List.headD_cons, List.tail_cons] at hp
        rcases List.mem_cons.mp hp with h | h
        · subst h
          rcases List.mem_cons.mp hc with hc | hc
          · subst hc; simpa using ha
          · exact ih h1 (hsp ▸ List.mem_cons_self h1 t) c hc
        · exact ih piece (hsp ▸ List.mem_cons_of_mem h1 h) c hc

theorem mem_sortDedup (a : PyStr) (l : List PyStr) :
    a ∈ sortDedup l ↔ a ∈ l :=
  ((List.perm_insertionSort (· ≤ ·) l.dedup).mem_iff).trans List.mem_dedup

theorem sortDedup_congr (l l' : List PyStr)
    (h : ∀ a, a ∈ l ↔ a ∈ l') : sortDedup l = sortDedup l' := by
  have hperm : l.dedup.Perm l'.dedup := by
    refine List.perm_of_nodup_nodup_toFinset_eq (List.nodup_dedup l)
      (List.nodup_dedup l') ?_
    ext a
    simp [List.mem_toFinset, List.mem_dedup, h a]
  exact List.eq_of_perm_of_sorted
    (((List.perm_insertionSort _ _).trans hperm).trans
      (List.perm_insertionSort _ _).symm)
    (List.sorted_insertionSort _ _) (List.sorted_insertionSort _ _)

theorem sortDedup_sortDedup (l : List PyStr) :
    sortDedup (sortDedup l) = sortDedup l :=
  sortDedup_congr _ _ (fun a => mem_sortDedup a l)

theorem dropWhile_eq_self_of_head (p : Char → Bool) (s : PyStr)
    (h : ∀ c ∈ s, p c = false) : s.dropWhile p = s := by
  cases s with
  | nil => rfl
  | cons a l =>
    simp [List.dropWhile_cons, h a (List.mem_cons_self a l)]

theorem pyStrip_eq_self (s : PyStr) (h : ∀ c ∈ s, isPySpace c = false) :
    pyStrip s = s := by
  unfold pyStrip pyLStrip pyRStrip
  rw [dropWhile_eq_self_of_head _ s h,
    dropWhile_eq_self_of_head _ s.reverse
      (fun c hc => h c (List.mem_reverse.mp hc)),
    List.reverse_reverse]

theorem mem_pyStrip (a : Char) (s : PyStr) (h : a ∈ pyStrip s) : a ∈ s := by
  unfold pyStrip pyRStrip pyLStrip at h
  rw [List.mem_reverse] at h
  have h2 := (List.dropWhile_sublist (l := (s.dropWhile isPySpace).reverse)
    isPySpace).subset h
  rw [List.mem_reverse] at h2
  exact (List.dropWhile_sublist isPySpace).subset h2

theorem pyContainsChar_eq_false_iff (s : PyStr) (c : Char) :
    pyContainsChar s c = false ↔ ∀ a ∈ s, (a == c) = false := by
  constructor
  · intro h a ha
    rw [beq_eq_false_iff_ne]
    intro hac
    subst hac
    rw [show pyContainsChar s a = s.elem a from rfl,
      (List.elem_iff).mpr ha] at h
    cases h
  · intro h
    by_contra hcon
    rw [Bool.not_eq_false] at hcon
    have hmem : c ∈ s := List.elem_iff.mp hcon
    have := h c hmem
    simp at this

theorem mem_segmentsOf_ne_nil (s tag : PyStr) (h : s ∈ segmentsOf tag) :
    s ≠ [] := by
  unfold segmentsOf at h
  have := (List.mem_filter.mp h).2
  simpa using this

theorem mem_segmentsOf_strip (s tag : PyStr) (h : s ∈ segmentsOf tag) :
    ∃ piece ∈ splitOnChar '/' tag, s = pyStrip piece := by
  unfold segmentsOf at h
  rcases List.mem_map.mp (List.mem_filter.mp h).1 with ⟨piece, hp, hs⟩
  exact ⟨piece, hp, hs.symm⟩

theorem segmentsOf_no_slash (s tag : PyStr) (h : s ∈ segmentsOf tag) :
    pyContainsChar s '/' = false := by
  rcases mem_segmentsOf_strip s tag h with ⟨piece, hp, hs⟩
  rw [pyContainsChar_eq_false_iff]
  intro a ha
  exact mem_splitOnPred_pfree _ tag piece hp a (mem_pyStrip a piece (hs ▸ ha))

theorem segmentsOf_singleton (t : PyStr)
    (hsl : pyContainsChar t '/' = false) (hst : pyStrip t = t)
    (hne : t ≠ []) : segmentsOf t = [t] := by
  unfold segmentsOf
  rw [show splitOnChar '/' t = [t] from
    splitOnPred_eq_self _ t ((pyContainsChar_eq_false_iff t '/').mp hsl)]
  simp [hst, hne]

theorem mem_tagsFromPart (part a : PyStr) (ha : a ∈ tagsFromPart part) :
    a = tagOfPart part ∨ a ∈ segmentsOf (tagOfPart part) := by
  simp only [tagsFromPart] at ha
  split_ifs at ha with h0 hsl
  · cases ha
  · rcases List.mem_cons.mp ha with h | h
    · exact Or.inl h
    · exact Or.inr h
  · rcases List.mem_cons.mp ha with h | h
    · exact Or.inl h
    · cases h

theorem tagOfPart_ne_nil_of_mem (part a : PyStr) (ha : a ∈ tagsFromPart part) :
    tagOfPart part ≠ [] := by
  intro h0
  simp [tagsFromPart, h0] at ha

theorem tagsFromPart_eq_cons (part : PyStr) (h0 : tagOfPart part ≠ [])
    (hsl : pyContainsChar (tagOfPart part) '/' = true) :
    tagsFromPart part = tagOfPart part :: segmentsOf (tagOfPart part) := by
  simp [tagsFromPart, h0, hsl]

theorem self_mem_tagsFromPart (part : PyStr) (h0 : tagOfPart part ≠ []) :
    tagOfPart part ∈ tagsFromPart part := by
  simp only [tagsFromPart]
  split_ifs with h hsl
  · exact absurd h h0
  · exact List.mem_cons_self _ _
  · exact List.mem_cons_self _ _

theorem clean_strip (t : PyStr) (h : CleanTag t) : pyStrip t = t :=
  pyStrip_eq_self t (fun c hc => (h.2.1 c hc).1)

theorem clean_dropHash (t : PyStr) (h : CleanTag t) : dropHash t = t := by
  refine dropWhile_eq_self_of_head _ t (fun c hc => ?_)
  have := (h.2.1 c hc).2.2
  simpa using this

theorem clean_tagOfPart (t : PyStr) (h : CleanTag t) : tagOfPart t = t := by
  unfold tagOfPart
  rw [clean_strip t h, clean_dropHash t h, clean_strip t h, h.2.2]

theorem clean_noComma (t : PyStr) (h : CleanTag t) :
    pyContainsChar t ',' = false := by
  rw [pyContainsChar_eq_false_iff]
  intro a ha
  rw [beq_eq_false_iff_ne]
  exact (h.2.1 a ha).2.1

theorem clean_splitWs (t : PyStr) (h : CleanTag t) : pySplitWs t = [t] := by
  unfold pySplitWs
  rw [splitOnPred_eq_self _ t (fun c hc => (h.2.1 c hc).1)]
  simp [h.1]

/-- The segments of any member of `_normalize_tags`' output are themselves
members of the output. -/
theorem segments_closed (x t : PyStr) (ht : t ∈ normalizeTagsStr x)
    (hstrip : pyStrip t = t) :
    ∀ s ∈ segmentsOf t, s ∈ normalizeTagsStr x := by
  intro s hs
  unfold normalizeTagsStr at ht ⊢
  by_cases hx : pyStrip x = []
  · rw [if_pos hx] at ht
    cases ht
  · rw [if_neg hx] at ht ⊢
    rw [mem_sortDedup] at ht ⊢
    rcases List.mem_flatMap.mp ht with ⟨part, hpart, htp⟩
    refine List.mem_flatMap.mpr ⟨part, hpart, ?_⟩
    have h0 : tagOfPart part ≠ [] := tagOfPart_ne_nil_of_mem part t htp
    have htne : t ≠ [] := by
      rcases mem_tagsFromPart part t htp with h | h
      · exact h ▸ h0
      · exact mem_segmentsOf_ne_nil t _ h
    rcases mem_tagsFromPart part t htp with heq | hseg
    · by_cases hsl : pyContainsChar t '/' = true
      · rw [tagsFromPart_eq_cons part h0 (heq ▸ hsl)]
        exact List.mem_cons_of_mem _ (heq ▸ hs)
      · rw [segmentsOf_singleton t (Bool.not_eq_true _ ▸ hsl) hstrip htne]
          at hs
        rcases List.mem_cons.mp hs with h | h
        · exact h ▸ htp
        · cases h
    · have hnosl : pyContainsChar t '/' = false :=
        segmentsOf_no_slash t _ hseg
      rw [segmentsOf_singleton t hnosl hstrip htne] at hs
      rcases List.mem_cons.mp hs with h | h
      · exact h ▸ htp
      · cases h

theorem normStr_of_clean (t : PyStr) (h : CleanTag t) :
    normalizeTagsStr t = sortDedup (tagsFromPart t) := by
  unfold normalizeTagsStr
  rw [clean_strip t h, if_neg h.1, clean_noComma t h]
  simp only [Bool.false_eq_true, if_false]
  rw [clean_splitWs t h]
  simp

theorem normStr_shape (x : PyStr) :
    normalizeTagsStr x = [] ∨
      ∃ L, normalizeTagsStr x = sortDedup L := by
  by_cases hx : pyStrip x = []
  · exact Or.inl (by simp [normalizeTagsStr, hx])
  · refine Or.inr
      ⟨((if pyContainsChar (pyStrip x) ',' = true then
          splitOnChar ',' (pyStrip x)
        else pySplitWs (pyStrip x)).flatMap tagsFromPart), ?_⟩
    simp [normalizeTagsStr, hx]

/-! ## Claims -/

/-- C1: the claimed folder fallback (strategies 5-7) is absent from
`get_graph`.  In the vault with notes `["Projects/Active.md", "index.md"]`
and folder `"Projects"`, no note matches the target `"Projects"`, and
contrary to the claim the resolution returns null rather than the folder's
path: the wikilink `[[Projects]]` of `index.md` produces no edge at all. -/
theorem claim_C1_folder_resolution_missing :
    resolveWikilink (buildNotePaths cexNotes) (buildNotePathsLower cexNotes)
      (buildNoteNames cexNotes) (strData "Projects") = none ∧
    (buildGraph id cexNotes).2 = [] := by
  constructor
  · decide
  · decide

/-- C2: `get_graph` emits no folder nodes and no `type` field.  In the
vault with folder `"Projects"` holding `Projects/Active.md`, the node list
is exactly the two note nodes `{id, label}`; contrary to the claim, no
node for the folder `"Projects"` exists. -/
theorem claim_C2_folder_nodes_missing :
    (buildGraph id cexNotes).1 =
      [⟨strData "Projects/Active.md", strData "Active"⟩,
       ⟨strData "index.md", strData "index"⟩] ∧
    ∀ node ∈ (buildGraph id cexNotes).1, node.id ≠ strData "Projects" := by
  constructor
  · decide
  · decide

/-- C2 witness: the note node of `Projects/Active.md` is in the node list
and, per the theorem, is not a node for the folder `Projects`. -/
theorem claim_C2_folder_nodes_missing_witness :
    (⟨strData "Projects/Active.md", strData "Active"⟩ : GraphNode) ∈
      (buildGraph id cexNotes).1 ∧
    (⟨strData "Projects/Active.md", strData "Active"⟩ : GraphNode).id ≠
      strData "Projects" :=
  ⟨by decide, claim_C2_folder_nodes_missing.2 _ (by decide)⟩

/-- C3: `run_hook` with a `content` keyword threads the value through the
enabled plugins implementing the hook in registration order (non-null
returns replace the running value, null returns leave it unchanged) and
returns the accumulated value; on the concrete two-plugin chain
(`P1` uppercases, `P2` appends `"!"`) the content `"hi"` becomes `"HI!"`,
and `"HI"` when `P2` is disabled; without a `content` keyword the call
returns null. -/
theorem claim_C3_content_hook_chain :
    (∀ (plugins : List HookPlugin) (hookName : PyStr) (v : Option PyStr),
        (runHook plugins hookName (some v)).1 =
          specChainContent plugins hookName v) ∧
    (runHook [P1ex, P2ex] onNoteSave (some (some (strData "hi")))).1 =
      some (strData "HI!") ∧
    (runHook [P1ex, P2exOff] onNoteSave (some (some (strData "hi")))).1 =
      some (strData "HI") ∧
    (∀ (plugins : List HookPlugin) (hookName : PyStr),
        (runHook plugins hookName none).1 = none) := by
  refine ⟨fun plugins hookName v => ?_, by decide, by decide,
    fun plugins hookName => ?_⟩
  · simp [runHook, runHookGo_fst_eq_spec]
  · simp [runHook]

/-- C4: an exception raised by a plugin's hook method is caught, logged
with the plugin's name and the hook name, and the chain continues: the
plugins after the failing one run on the value from before it, and the
final result and full log are returned. -/
theorem claim_C4_hook_failure_isolation (ps1 ps2 : List HookPlugin)
    (p : HookPlugin) (h : PyStr) (v : Option PyStr)
    (f : Option (Option PyStr) → PyRes (Option PyStr))
    (he : p.enabled = true) (hf : p.method h = some f)
    (hx : ∀ x, f x = PyRes.exn) :
    runHook (ps1 ++ p :: ps2) h (some v) =
      ((runHook ps2 h (some (runHook ps1 h (some v)).1)).1,
       (runHook ps1 h (some v)).2 ++
         (p.name, h) ::
           (runHook ps2 h (some (runHook ps1 h (some v)).1)).2) := by
  have e1 : runHookGo h true (p :: ps2) (runHookGo h true ps1 v).1 =
      ((runHookGo h true ps2 (runHookGo h true ps1 v).1).1,
       (p.name, h) ::
         (runHookGo h true ps2 (runHookGo h true ps1 v).1).2) := by
    simp [runHookGo, hf, he, hx]
  have hj : ∀ w : Option PyStr, (some w).join = w := fun w => rfl
  simp only [runHook, Option.isSome_some, if_true, hj]
  rw [runHookGo_append h true ps1 (p :: ps2) v, e1]

/-- C4 witness: with the always-raising `P1` followed by `P2`, the hook
chain still returns `P2`'s result on the original content and logs the
failure of `P1`. -/
theorem claim_C4_hook_failure_isolation_witness :
    runHook [PRaise, P2ex] onNoteSave (some (some (strData "hi"))) =
      (some (strData "hi!"), [(strData "P1", onNoteSave)]) := by
  have h := claim_C4_hook_failure_isolation [] [P2ex] PRaise onNoteSave
    (some (strData "hi")) raiseMethod rfl rfl (fun x => rfl)
  rw [show ([] : List HookPlugin) ++ PRaise :: [P2ex] = [PRaise, P2ex]
    from rfl] at h
  rw [h]
  decide

/-- C9: `run_hook_with_return` always returns the final value of the
`initial_content` keyword argument (updated only by non-null plugin
returns when the keyword was passed), never the raw return value of the
last plugin; in particular, without an `initial_content` keyword it
returns the empty string regardless of what the plugins return. -/
theorem claim_C9_run_hook_with_return_value :
    (∀ (plugins : List HookPlugin) (hookName : PyStr)
        (kwInit : Option (Option PyStr)),
        (runHookWithReturn plugins hookName kwInit).1 =
          match specThreadInitial plugins hookName kwInit with
          | some v => v
          | none => some []) ∧
    (∀ (plugins : List HookPlugin) (hookName : PyStr),
        (runHookWithReturn plugins hookName none).1 = some []) := by
  constructor
  · intro plugins hookName kwInit
    simp [runHookWithReturn, runHookWithReturnGo_fst_eq_spec]
  · intro plugins hookName
    simp [runHookWithReturn, runHookWithReturnGo_fst_eq_spec,
      specThreadInitial_none]

/-- C5: each call of `get_tags_cached` stats the file; a cache entry with
the current mtime is served without reading the file (for every read
outcome `rd`, including an unreadable file); otherwise the file is read
and parsed, the entry is replaced by the new `(mtime, tags)` pair and the
tags returned; a failed stat, or a failed read, yields the empty tag set
instead of an exception. -/
theorem claim_C5_tag_cache_behavior :
    (∀ (fs : FileSys) (cache : TagCache) (path : PyStr) (m : Int)
        (rd : Option PyStr) (ct : List PyStr),
        fs path = some (m, rd) → cacheLookup cache path = some (m, ct) →
        getTagsCached fs cache path = (ct, cache)) ∧
    (∀ (fs : FileSys) (cache : TagCache) (path : PyStr) (m : Int)
        (content : PyStr),
        fs path = some (m, some content) →
        (∀ e : Int × List PyStr, cacheLookup cache path = some e → e.1 ≠ m) →
        getTagsCached fs cache path =
          (parseTags content, cacheInsert cache path (m, parseTags content))) ∧
    (∀ (fs : FileSys) (cache : TagCache) (path : PyStr),
        fs path = none → getTagsCached fs cache path = ([], cache)) ∧
    (∀ (fs : FileSys) (cache : TagCache) (path : PyStr) (m : Int),
        fs path = some (m, none) →
        (∀ e : Int × List PyStr, cacheLookup cache path = some e → e.1 ≠ m) →
        getTagsCached fs cache path = ([], cache)) := by
  refine ⟨?_, ?_, ?_, ?_⟩
  · intro fs cache path m rd ct hfs hc
    simp [getTagsCached, hfs, hc]
  · intro fs cache path m content hfs hcc
    cases hc : cacheLookup cache path with
    | none => simp [getTagsCached, hfs, hc]
    | some e =>
      obtain ⟨cm, ct⟩ := e
      have hne : cm ≠ m := hcc (cm, ct) hc
      simp [getTagsCached, hfs, hc, hne]
  · intro fs cache path hfs
    simp [getTagsCached, hfs]
  · intro fs cache path m hfs hcc
    cases hc : cacheLookup cache path with
    | none => simp [getTagsCached, hfs, hc]
    | some e =>
      obtain ⟨cm, ct⟩ := e
      have hne : cm ≠ m := hcc (cm, ct) hc
      simp [getTagsCached, hfs, hc, hne]

/-- C5 witness: on the concrete vault, a fresh parse caches `x`; the
cached entry is served at the same mtime even when the file became
unreadable; after a rewrite (mtime 2, tag `y`) the entry is replaced. -/
theorem claim_C5_tag_cache_behavior_witness :
    getTagsCached fsErr cacheA (strData "a.md") = ([strData "x"], cacheA) ∧
    getTagsCached fsB cacheA (strData "a.md") =
      ([strData "y"], [(strData "a.md", (2, [strData "y"]))]) ∧
    getTagsCached (fun _ => none) cacheA (strData "a.md") =
      ([], cacheA) := by
  refine ⟨?_, ?_, ?_⟩
  · exact claim_C5_tag_cache_behavior.1 fsErr cacheA (strData "a.md") 1 none
      [strData "x"] rfl rfl
  · refine (claim_C5_tag_cache_behavior.2.1 fsB cacheA (strData "a.md") 2
      (strData "---\ntags: y\n---") rfl ?_).trans (by decide)
    intro e he
    rw [show cacheLookup cacheA (strData "a.md") = some (1, [strData "x"])
      from rfl] at he
    cases he
    decide
  · exact claim_C5_tag_cache_behavior.2.2.1 (fun _ => none) cacheA
      (strData "a.md") rfl

/-- C10: when `get_tags_cached` encounters an exception (failed stat, or a
failed read with no valid cache entry) it returns the empty tag set with
the cache completely unchanged; a previously stored entry survives such a
failed call and is still served by a later call that finds the same
mtime. -/
theorem claim_C10_cache_unchanged_on_failure :
    (∀ (fs : FileSys) (cache : TagCache) (path : PyStr),
        fs path = none → getTagsCached fs cache path = ([], cache)) ∧
    (∀ (fs : FileSys) (cache : TagCache) (path : PyStr) (m : Int),
        fs path = some (m, none) →
        (∀ e : Int × List PyStr, cacheLookup cache path = some e → e.1 ≠ m) →
        getTagsCached fs cache path = ([], cache)) ∧
    (∀ (fs : FileSys) (cache : TagCache) (path : PyStr) (m : Int)
        (rd : Option PyStr) (ct : List PyStr),
        cacheLookup cache path = some (m, ct) → fs path = some (m, rd) →
        getTagsCached fs cache path = (ct, cache)) := by
  refine ⟨?_, ?_, ?_⟩
  · intro fs cache path hfs
    simp [getTagsCached, hfs]
  · intro fs cache path m hfs hcc
    cases hc : cacheLookup cache path with
    | none => simp [getTagsCached, hfs, hc]
    | some e =>
      obtain ⟨cm, ct⟩ := e
      have hne : cm ≠ m := hcc (cm, ct) hc
      simp [getTagsCached, hfs, hc, hne]
  · intro fs cache path m rd ct hc hfs
    simp [getTagsCached, hfs, hc]

/-- C10 witness: a failed stat and a failed read on an empty cache leave
the cache empty; the stored entry of `a.md` survives and is then served by
a later call at its mtime. -/
theorem claim_C10_cache_unchanged_on_failure_witness :
    getTagsCached (fun _ => none) cacheA (strData "a.md") = ([], cacheA) ∧
    getTagsCached fsErr [] (strData "a.md") = ([], []) ∧
    getTagsCached fsA cacheA (strData "a.md") = ([strData "x"], cacheA) := by
  refine ⟨?_, ?_, ?_⟩
  · exact claim_C10_cache_unchanged_on_failure.1 (fun _ => none) cacheA
      (strData "a.md") rfl
  · refine claim_C10_cache_unchanged_on_failure.2.1 fsErr [] (strData "a.md")
      1 rfl ?_
    intro e he
    rw [show cacheLookup [] (strData "a.md") = none from rfl] at he
    cases he
  · exact claim_C10_cache_unchanged_on_failure.2.2 fsA cacheA (strData "a.md")
      1 (some (strData "---\ntags: x\n---")) [strData "x"] rfl rfl

/-- C6 counterexample: normalization is not idempotent on the code.  For
the raw token `"a/#b"` the first pass keeps the segment `"#b"` verbatim
(segments are not `#`-stripped), while the second pass strips its leading
`#`, adding a new tag `"b"`. -/
theorem claim_C6_normalize_not_idempotent :
    normalizeTagsStr (strData "a/#b") =
      [strData "#b", strData "a", strData "a/#b"] ∧
    normalizeTagsList (normalizeTagsStr (strData "a/#b")) =
      [strData "#b", strData "a", strData "a/#b", strData "b"] ∧
    normalizeTagsList (normalizeTagsStr (strData "a/#b")) ≠
      normalizeTagsStr (strData "a/#b") := by
  refine ⟨by decide, by decide, by decide⟩

/-- C6 (amended): normalization is idempotent on every raw token whose
normalized output consists of canonical tags — nonempty, free of
whitespace, commas and `#`, and already lowercase: for such `x`,
`normalize(normalize(x)) = normalize(x)`.  (The output is automatically
nonempty-free, lowercase and comma-free; the restriction excludes tags
that retain whitespace or an inner `#`, on which idempotence fails.) -/
theorem claim_C6_normalize_idempotent_on_clean (x : PyStr)
    (hclean : ∀ t ∈ normalizeTagsStr x, CleanTag t) :
    normalizeTagsList (normalizeTagsStr x) = normalizeTagsStr x := by
  have hmem : ∀ a, a ∈ (normalizeTagsStr x).flatMap normalizeTagsStr ↔
      a ∈ normalizeTagsStr x := by
    intro a
    constructor
    · intro ha
      rcases List.mem_flatMap.mp ha with ⟨t, htN, haT⟩
      have hct := hclean t htN
      rw [normStr_of_clean t hct, mem_sortDedup] at haT
      rcases mem_tagsFromPart t a haT with heq | hseg
      · rw [clean_tagOfPart t hct] at heq
        exact heq ▸ htN
      · rw [clean_tagOfPart t hct] at hseg
        exact segments_closed x t htN (clean_strip t hct) a hseg
    · intro ha
      refine List.mem_flatMap.mpr ⟨a, ha, ?_⟩
      have hct := hclean a ha
      rw [normStr_of_clean a hct, mem_sortDedup]
      have h0 : tagOfPart a ≠ [] := by
        rw [clean_tagOfPart a hct]
        exact hct.1
      have hself := self_mem_tagsFromPart a h0
      rwa [clean_tagOfPart a hct] at hself
  rw [normalizeTagsList, sortDedup_congr _ _ hmem]
  rcases normStr_shape x with h | ⟨L, hL⟩
  · rw [h]
    rfl
  · rw [hL, sortDedup_sortDedup]

/-- C6 witness: the raw token `"Meta, tag/sub"` normalizes to the clean
tags `meta`, `sub`, `tag`, `tag/sub`, and a second normalization pass
returns them unchanged. -/
theorem claim_C6_normalize_idempotent_on_clean_witness :
    (∀ t ∈ normalizeTagsStr (strData "Meta, tag/sub"), CleanTag t) ∧
    normalizeTagsList (normalizeTagsStr (strData "Meta, tag/sub")) =
      normalizeTagsStr (strData "Meta, tag/sub") :=
  ⟨by decide, claim_C6_normalize_idempotent_on_clean _ (by decide)⟩

theorem dedupEdges_subset (es : List GraphEdge)
    (seen : List (PyStr × PyStr)) (e : GraphEdge)
    (he : e ∈ dedupEdges es seen) : e ∈ es := by
  induction es generalizing seen with
  | nil => simp [dedupEdges] at he
  | cons a es ih =>
    by_cases hc : (a.source, a.target) ∈ seen
    · simp only [dedupEdges, List.elem_iff, hc, if_true] at he
      exact List.mem_cons_of_mem a (ih seen he)
    · simp only [dedupEdges, List.elem_iff, hc, if_false] at he
      rcases List.mem_cons.mp he with h | h
      · exact h ▸ List.mem_cons_self a es
      · exact List.mem_cons_of_mem a (ih _ h)

theorem dedupEdges_keys_nodup (es : List GraphEdge)
    (seen : List (PyStr × PyStr)) :
    ((dedupEdges es seen).map fun e => (e.source, e.target)).Nodup ∧
      ∀ e ∈ dedupEdges es seen, (e.source, e.target) ∉ seen := by
  induction es generalizing seen with
  | nil => simp [dedupEdges]
  | cons a es ih =>
    by_cases hc : (a.source, a.target) ∈ seen
    · simpa [dedupEdges, List.elem_iff, hc] using ih seen
    · obtain ⟨ihnd, ihseen⟩ := ih ((a.source, a.target) :: seen)
      refine ⟨?_, ?_⟩
      · simp only [dedupEdges, List.elem_iff, hc, if_false, List.map_cons,
          List.nodup_cons]
        refine ⟨?_, ihnd⟩
        intro hin
        rcases List.mem_map.mp hin with ⟨e, he, hkey⟩
        exact ihseen e he (hkey ▸ List.mem_cons_self _ _)
      · intro e he
        simp only [dedupEdges, List.elem_iff, hc, if_false] at he
        rcases List.mem_cons.mp he with h | h
        · exact h ▸ hc
        · intro hseen
          exact ihseen e h (List.mem_cons_of_mem _ hseen)

theorem dedupEdges_find?_eq (es : List GraphEdge)
    (seen : List (PyStr × PyStr)) (k : PyStr × PyStr) (hk : k ∉ seen) :
    ((dedupEdges es seen).find? fun e => (e.source, e.target) == k) =
      es.find? fun e => (e.source, e.target) == k := by
  induction es generalizing seen with
  | nil => simp [dedupEdges]
  | cons a es ih =>
    by_cases hc : (a.source, a.target) ∈ seen
    · have hak : ((a.source, a.target) == k) = false := by
        apply beq_false_of_ne
        intro h
        exact hk (h ▸ hc)
      simp only [dedupEdges, List.elem_iff, hc, if_true, List.find?_cons, hak]
      exact ih seen hk
    · by_cases hak : (a.source, a.target) = k
      · have hbeq : ((a.source, a.target) == k) = true := beq_iff_eq.mpr hak
        simp only [dedupEdges, List.elem_iff, hc, if_false, List.find?_cons,
          hbeq]
      · have hbeq : ((a.source, a.target) == k) = false :=
          beq_false_of_ne hak
        simp only [dedupEdges, List.elem_iff, hc, if_false, List.find?_cons,
          hbeq]
        refine ih ((a.source, a.target) :: seen) ?_
        intro hmem
        rcases List.mem_cons.mp hmem with h | h
        · exact hak h.symm
        · exact hk h

theorem mem_wikiEdges_shape (notePaths : List PyStr) (npl nn : StrDict)
    (n : NoteItem) (e : GraphEdge) (he : e ∈ wikiEdges notePaths npl nn n) :
    e.source = n.path ∧ e.target ≠ n.path := by
  rcases List.mem_filterMap.mp he with ⟨t, _, hres⟩
  cases hr : resolveWikilink notePaths npl nn t with
  | none => simp [hr] at hres
  | some p =>
    simp only [hr] at hres
    split_ifs at hres with hcond
    cases hres
    exact ⟨rfl, fun h => hcond.2 h⟩

theorem mem_mdEdges_shape (unquote : PyStr → PyStr) (notePaths : List PyStr)
    (npl nn : StrDict) (n : NoteItem) (e : GraphEdge)
    (he : e ∈ mdEdges unquote notePaths npl nn n) :
    e.source = n.path ∧ e.target ≠ n.path := by
  rcases List.mem_filterMap.mp he with ⟨t, _, hres⟩
  cases hr : resolveMarkdown unquote notePaths npl nn t with
  | none => simp [hr] at hres
  | some p =>
    simp only [hr] at hres
    split_ifs at hres with hcond
    cases hres
    exact ⟨rfl, fun h => hcond.2 h⟩

theorem rawGraphEdges_no_self_loop (unquote : PyStr → PyStr)
    (notes : List NoteItem) (e : GraphEdge)
    (he : e ∈ rawGraphEdges unquote notes) : e.source ≠ e.target := by
  rcases List.mem_flatMap.mp he with ⟨n, _, hn⟩
  by_cases ht : n.type = strData "note"
  · rw [if_pos ht] at hn
    rcases List.mem_append.mp hn with h | h
    · obtain ⟨hs, hne⟩ := mem_wikiEdges_shape _ _ _ _ _ h
      rw [hs]
      exact fun hcontra => hne hcontra.symm
    · obtain ⟨hs, hne⟩ := mem_mdEdges_shape _ _ _ _ _ _ h
      rw [hs]
      exact fun hcontra => hne hcontra.symm
  · rw [if_neg ht] at hn
    cases hn

theorem splitOnChar_joinLines (ls : List PyStr) (hne : ls ≠ [])
    (hf : ∀ l ∈ ls, ∀ c ∈ l, (c == '\n') = false) :
    splitOnChar '\n' (joinLines ls) = ls := by
  induction ls with
  | nil => exact absurd rfl hne
  | cons l ls ih =>
    cases ls with
    | nil =>
      exact splitOnPred_eq_self _ l (hf l (List.mem_cons_self l []))
    | cons l2 rest =>
      have hjoin : joinLines (l :: l2 :: rest) =
          l ++ '\n' :: joinLines (l2 :: rest) := rfl
      rw [hjoin]
      unfold splitOnChar
      rw [splitOnPred_append _ l _ (hf l (List.mem_cons_self l _)),
        splitOnPred_cons_pos _ '\n' _ (by simp)]
      have ihr := ih (by simp)
        (fun m hm c hc => hf m (List.mem_cons_of_mem l hm) c hc)
      unfold splitOnChar at ihr
      rw [ihr]
      simp

theorem splitOnChar_joinLines_append (ls : List PyStr) (r : PyStr)
    (hne : ls ≠ [])
    (hf : ∀ l ∈ ls, ∀ c ∈ l, (c == '\n') = false) :
    splitOnChar '\n' (joinLines ls ++ '\n' :: r) =
      ls ++ splitOnChar '\n' r := by
  induction ls with
  | nil => exact absurd rfl hne
  | cons l ls ih =>
    cases ls with
    | nil =>
      show splitOnPred _ (l ++ '\n' :: r) = _
      rw [splitOnPred_append _ l _ (hf l (List.mem_cons_self l [])),
        splitOnPred_cons_pos _ '\n' _ (by simp)]
      simp [splitOnChar]
    | cons l2 rest =>
      have hjoin : joinLines (l :: l2 :: rest) ++ '\n' :: r =
          l ++ '\n' :: (joinLines (l2 :: rest) ++ '\n' :: r) := by
        simp [joinLines]
      rw [hjoin]
      show splitOnPred _ _ = _
      rw [splitOnPred_append _ l _ (hf l (List.mem_cons_self l _)),
        splitOnPred_cons_pos _ '\n' _ (by simp)]
      have ihr := ih (by simp)
        (fun m hm c hc => hf m (List.mem_cons_of_mem l hm) c hc)
      unfold splitOnChar at ihr
      rw [ihr]
      simp [splitOnChar]

theorem fmBlock_append (block : List PyStr) (tl : List PyStr)
    (hb : ∀ l ∈ block, pyStrip l ≠ strData "---") :
    fmBlock (block ++ strData "---" :: tl) = some block := by
  induction block with
  | nil =>
    simp [fmBlock, show pyStrip (strData "---") = strData "---" from by decide]
  | cons l block ih =>
    have hl : pyStrip l ≠ strData "---" := hb l (List.mem_cons_self l block)
    rw [List.cons_append]
    simp [fmBlock, hl, ih (fun m hm => hb m (List.mem_cons_of_mem l hm))]

theorem fmBlock_eq_none (ls : List PyStr)
    (h : ∀ l ∈ ls, pyStrip l ≠ strData "---") : fmBlock ls = none := by
  induction ls with
  | nil => rfl
  | cons l ls ih =>
    simp [fmBlock, h l (List.mem_cons_self l ls),
      ih (fun m hm => h m (List.mem_cons_of_mem l hm))]

theorem mem_joinLines (ls : List PyStr) (l : PyStr) (c : Char)
    (hl : l ∈ ls) (hc : c ∈ l) : c ∈ joinLines ls := by
  induction ls with
  | nil => cases hl
  | cons m ls ih =>
    cases ls with
    | nil =>
      rcases List.mem_cons.mp hl with h | h
      · subst h; exact hc
      · cases h
    | cons m2 rest =>
      rcases List.mem_cons.mp hl with h | h
      · subst h
        exact List.mem_append_left _ hc
      · exact List.mem_append_right _ (List.mem_cons_of_mem '\n' (ih h))

theorem joinLines_cons_of_ne_nil (l : PyStr) (ls : List PyStr)
    (h : ls ≠ []) : joinLines (l :: ls) = l ++ '\n' :: joinLines ls := by
  cases ls with
  | nil => exact absurd rfl h
  | cons l2 rest => rfl

theorem pyRStrip_append (xs ys : PyStr) (c : Char) (hc : c ∈ ys)
    (hcs : isPySpace c = false) :
    pyRStrip (xs ++ ys) = xs ++ pyRStrip ys := by
  unfold pyRStrip
  rw [List.reverse_append, List.dropWhile_append]
  have hne : ys.reverse.dropWhile isPySpace ≠ [] := by
    intro hnil
    rw [List.dropWhile_eq_nil_iff] at hnil
    rw [hnil c (List.mem_reverse.mpr hc)] at hcs
    cases hcs
  rw [if_neg (by simpa [List.isEmpty_iff] using hne)]
  simp

theorem pyLStrip_cons_neg (a : Char) (s : PyStr) (ha : isPySpace a = false) :
    pyLStrip (a :: s) = a :: s := by
  simp [pyLStrip, List.dropWhile_cons, ha]

/-- Evaluating `parseTags` on a content string with an explicit
frontmatter block: the result is the frontmatter scan of the block,
whatever follows the closing delimiter. -/
theorem parseTags_mkContent (block : List PyStr) (rest : PyStr)
    (hb : ∀ l ∈ block,
      (∀ c ∈ l, (c == '\n') = false) ∧ pyStrip l ≠ strData "---")
    (hr : rest = [] ∨ ∃ r, rest = '\n' :: r) :
    parseTags (mkContent block rest) = scanFM block false [] := by
  have hfree : ∀ l ∈ strData "---" :: block ++ [strData "---"],
      ∀ c ∈ l, (c == '\n') = false := by
    intro l hl c hc
    rcases List.mem_cons.mp hl with h | h
    · subst h
      rcases hc with _ | ⟨_, _ | ⟨_, _ | ⟨_, h⟩⟩⟩ <;> first | rfl | cases h
    · rcases List.mem_append.mp h with h | h
      · exact (hb l h).1 c hc
      · rcases List.mem_cons.mp h with h | h
        · subst h
          rcases hc with _ | ⟨_, _ | ⟨_, _ | ⟨_, h⟩⟩⟩ <;> first | rfl | cases h
        · cases h
  have hlines : ∃ tl, splitOnChar '\n' (mkContent block rest) =
      strData "---" :: (block ++ strData "---" :: tl) := by
    rcases hr with h | ⟨r, h⟩
    · subst h
      refine ⟨[], ?_⟩
      rw [show mkContent block [] =
        joinLines (strData "---" :: block ++ [strData "---"]) by
          simp [mkContent]]
      rw [splitOnChar_joinLines _ (by simp) hfree]
      simp
    · subst h
      refine ⟨splitOnChar '\n' r, ?_⟩
      rw [show mkContent block ('\n' :: r) =
        joinLines (strData "---" :: block ++ [strData "---"]) ++
          '\n' :: r from rfl]
      rw [splitOnChar_joinLines_append _ r (by simp) hfree]
      simp
  have hjoin_shape : ∃ X, mkContent block rest = strData "---" ++ X ∧
      '-' ∈ X := by
    refine ⟨'\n' :: joinLines (block ++ [strData "---"]) ++ rest, ?_, ?_⟩
    · rw [show mkContent block rest =
        joinLines (strData "---" :: block ++ [strData "---"]) ++ rest
        from rfl]
      show joinLines (strData "---" :: (block ++ [strData "---"])) ++ rest = _
      rw [joinLines_cons_of_ne_nil]
      · simp
      · simp
    · refine List.mem_append_left _ (List.mem_cons_of_mem '\n' ?_)
      exact mem_joinLines _ (strData "---") '-'
        (List.mem_append_right block (List.mem_cons_self _ _)) (by decide)
  obtain ⟨X, hshape, hdash⟩ := hjoin_shape
  have houter : pyStartsWith (strData "---") (pyStrip (mkContent block rest)) =
      true := by
    rw [hshape]
    unfold pyStrip
    rw [show pyLStrip (strData "---" ++ X) = strData "---" ++ X from
      pyLStrip_cons_neg '-' _ (by decide)]
    rw [pyRStrip_append _ X '-' hdash (by decide)]
    unfold pyStartsWith
    rw [List.isPrefixOf_iff_prefix]
    exact List.prefix_append _ _
  obtain ⟨tl, hl⟩ := hlines
  rw [parseTags, if_neg (by simp [houter]), hl]
  have hhead : pyStrip ((strData "---" :: (block ++ strData "---" :: tl)).headD []) =
      strData "---" :=
    show pyStrip (strData "---") = strData "---" from by decide
  rw [if_neg (fun hcon => hcon hhead)]
  simp only [List.drop_succ_cons, List.drop_zero]
  rw [fmBlock_append block tl (fun l hl => (hb l hl).2)]

/-- C7 counterexample: frontmatter preceded by a blank line is NOT parsed,
although its first non-empty line is `---`: the claim requires the first
content to yield the tags of the second, but the code returns `[]`. -/
theorem claim_C7_leading_blank_counterexample :
    parseTags (strData "\n---\ntags: x\n---\n") = [] ∧
    parseTags (strData "---\ntags: x\n---\n") = [strData "x"] := by
  constructor
  · decide
  · decide

/-- C7 (amended): `parse_tags` returns `[]` unless the very first line of
the content strips to exactly `---` (so content preceded by blank lines
yields `[]`); it returns `[]` when no closing `---` line follows; and
otherwise the tags are extracted only from the block between the first and
second `---` lines — whatever follows the closing delimiter does not
change the result.  Malformed frontmatter is silently ignored, never an
error. -/
theorem claim_C7_frontmatter_gating :
    (∀ content : PyStr,
      pyStrip ((splitOnChar '\n' content).headD []) ≠ strData "---" →
      parseTags content = []) ∧
    (∀ content : PyStr,
      (∀ l ∈ (splitOnChar '\n' content).drop 1,
        pyStrip l ≠ strData "---") →
      parseTags content = []) ∧
    (∀ (block : List PyStr) (rest1 rest2 : PyStr),
      (∀ l ∈ block,
        (∀ c ∈ l, (c == '\n') = false) ∧ pyStrip l ≠ strData "---") →
      (rest1 = [] ∨ ∃ r, rest1 = '\n' :: r) →
      (rest2 = [] ∨ ∃ r, rest2 = '\n' :: r) →
      parseTags (mkContent block rest1) = parseTags (mkContent block rest2)) := by
  refine ⟨?_, ?_, ?_⟩
  · intro content hhead
    rw [parseTags]
    by_cases houter : pyStartsWith (strData "---") (pyStrip content)
    · rw [if_neg (by simp [houter])]
      rw [if_pos hhead]
    · rw [if_pos (by simp [houter])]
  · intro content hrest
    rw [parseTags]
    by_cases houter : pyStartsWith (strData "---") (pyStrip content)
    · rw [if_neg (by simp [houter])]
      by_cases hhead :
          pyStrip ((splitOnChar '\n' content).headD []) = strData "---"
      · rw [if_neg (fun hcon => hcon hhead), fmBlock_eq_none _ hrest]
      · rw [if_pos hhead]
    · rw [if_pos (by simp [houter])]
  · intro block rest1 rest2 hb hr1 hr2
    rw [parseTags_mkContent block rest1 hb hr1,
      parseTags_mkContent block rest2 hb hr2]

/-- C7 witness: the gating theorem applied at concrete contents: no
leading `---` line; a missing closing delimiter; and two contents sharing
the block `tags: x` with different trailers, which parse identically. -/
theorem claim_C7_frontmatter_gating_witness :
    parseTags (strData "No frontmatter here") = [] ∧
    parseTags (strData "---\ntags: x\nNo closing delimiter") = [] ∧
    parseTags (mkContent [strData "tags: x"] []) =
      parseTags (mkContent [strData "tags: x"] (strData "\nBody [[link]]")) := by
  refine ⟨?_, ?_, ?_⟩
  · exact claim_C7_frontmatter_gating.1 (strData "No frontmatter here")
      (by decide)
  · exact claim_C7_frontmatter_gating.2.1
      (strData "---\ntags: x\nNo closing delimiter") (by decide)
  · exact claim_C7_frontmatter_gating.2.2 [strData "tags: x"] []
      (strData "\nBody [[link]]") (by decide) (Or.inl rfl)
      (Or.inr ⟨strData "Body [[link]]", by decide⟩)

/-- C8: the edge list of every built graph has pairwise distinct
`(source, target)` keys, the representative of each key being the first
discovered edge with that key (its type included), and contains no
self-loop: every returned edge has `source != target`. -/
theorem claim_C8_edge_invariants (unquote : PyStr → PyStr)
    (notes : List NoteItem) :
    (((buildGraph unquote notes).2.map fun e => (e.source, e.target)).Nodup) ∧
    (∀ k : PyStr × PyStr,
      ((buildGraph unquote notes).2.find? fun e => (e.source, e.target) == k) =
        ((rawGraphEdges unquote notes).find? fun e =>
          (e.source, e.target) == k)) ∧
    ∀ e ∈ (buildGraph unquote notes).2, e.source ≠ e.target := by
  refine ⟨(dedupEdges_keys_nodup (rawGraphEdges unquote notes) []).1,
    fun k => dedupEdges_find?_eq (rawGraphEdges unquote notes) [] k
      (List.not_mem_nil k), fun e he => ?_⟩
  exact rawGraphEdges_no_self_loop unquote notes e
    (dedupEdges_subset (rawGraphEdges unquote notes) [] e he)

/-- C8 witness: in the vault with duplicate links and a self link, the
built graph keeps exactly the first `A.md -> B.md` edge (a wikilink), and
the invariant theorem applied to that edge gives `source != target`. -/
theorem claim_C8_edge_invariants_witness :
    (buildGraph id dupNotes).2 =
      [⟨strData "A.md", strData "B.md", strData "wikilink"⟩] ∧
    strData "A.md" ≠ strData "B.md" := by
  refine ⟨by decide, ?_⟩
  exact (claim_C8_edge_invariants id dupNotes).2.2
    ⟨strData "A.md", strData "B.md", strData "wikilink"⟩ (by decide)

end Granite
